import Mathlib

/-!
Verification of the parcel-flow reactive workflow engine.

This file gives a shallow embedding of the repository's core:
`parcel.py` (Parcel), `base_node.py` (BaseNode, can_run, run_safe) and
`workflow_engine.py` (WorkflowEngine: execute_workflow, _can_node_run,
_run_node, _get_indexed_matches), together with the example nodes from
`nodes.py` that the claims mention (ArraySpreadNode, ProcessItemNode,
CollectNode).

Modelling choices (each noted again at the definition it concerns):
* Python dicts become association lists with in-place update (Python's
  dict update keeps the key's original insertion position; lookups are
  by key, so only the key-to-value map matters for the claims).
* Python's dynamic values become the inductive type Value; floats
  returned by time.time() are modelled by a monotone Nat clock threaded
  through the engine state, since no engine decision depends on the
  actual time values.
* The execution log of strings becomes a list of structured LogEvent
  values, one constructor per _log call site, recording the arguments
  that the f-string would have interpolated.  String formatting is
  presentation only and is not modelled.
* Exceptions raised by a node's run become an Except.error result; this
  is exactly the boundary at which run_safe catches them.
-/

/-- A dynamic (Python) value: strings, integers, lists, dicts, None.
Timestamps (floats in Python) are represented as integer clock ticks. -/
inductive Value where
  | str : String → Value
  | int : Int → Value
  | list : List Value → Value
  | dict : List (String × Value) → Value
  | none : Value

/-- Parcel from parcel.py: a named value with a creation timestamp and
the id of the producing node (None for seeded parcels). -/
structure Parcel where
  name : String
  value : Value
  timestamp : Nat
  node_id : Option String := Option.none

/-- The engine's parcel store: Python dict from name to Parcel,
modelled as an association list with in-place overwrite. -/
def Store : Type := List (String × Parcel)

/-- Lookup of a key, as Python's parcels[name] / name in parcels. -/
def storeFind (store : Store) (name : String) : Option Parcel :=
  match store with
  | [] => Option.none
  | (n, p) :: rest => if n = name then some p else storeFind rest name

/-- Key membership, as Python's "name in parcels". -/
def storeHas (store : Store) (name : String) : Bool :=
  (storeFind store name).isSome

/-- Python's parcels.keys(), in insertion order. -/
def storeKeys (store : Store) : List String :=
  store.map Prod.fst

/-- Python's parcels[name] = p: overwrite in place if the key exists,
otherwise append (dict insertion order semantics). -/
def storeInsert (store : Store) (name : String) (p : Parcel) : Store :=
  match store with
  | [] => [(name, p)]
  | (n, q) :: rest =>
      if n = name then (n, p) :: rest else (n, q) :: storeInsert rest name p

/-- One structured entry of the engine's execution log; one constructor
per _log call site of workflow_engine.py, carrying the data the source
interpolates into the message. -/
inductive LogEvent where
  /-- "Starting workflow with N nodes" -/
  | startingWorkflow : Nat → LogEvent
  /-- "Initial parcels: [...]" -/
  | initialParcels : List String → LogEvent
  /-- "--- Iteration n ---" -/
  | iterationStarted : Nat → LogEvent
  /-- "Running node" (no-index invocation); carries the node id. -/
  | running : String → LogEvent
  /-- "Running node for index [i]"; carries the node id and index. -/
  | runningForIndex : String → Int → LogEvent
  /-- "Input parcels: [...]" -/
  | inputParcels : List String → LogEvent
  /-- "Created parcel: ..."; carries the parcel name. -/
  | createdParcel : String → LogEvent
  /-- "No more nodes can run - workflow complete" -/
  | complete : LogEvent
  /-- "Workflow stopped - max iterations reached" -/
  | maxIterationsReached : LogEvent
deriving DecidableEq

/-- BaseNode from base_node.py.  The abstract class is embedded as a
record of its data plus its two dynamically dispatched methods: run
(abstract; exceptions modelled as Except.error) and can_run (default
supplied below, overridable by concrete node classes). -/
structure BaseNode where
  node_id : String
  requires : List String
  outputs : List String
  run : Store → Option Int → Except String (List (String × Value))
  /-- Default from BaseNode.can_run: all required names present as
  exact keys.  CollectNode overrides this field. -/
  can_run : Store → Bool := fun parcels => requires.all (storeHas parcels)

/-- BaseNode.run_safe: run with error handling.  A raised exception
becomes the single synthetic output error_<node_id> whose value carries
the message, the node id and a timestamp (the clock value now). -/
def BaseNode.run_safe (node : BaseNode) (parcels : Store) (index : Option Int)
    (now : Nat) : List (String × Value) :=
  match node.run parcels index with
  | .ok outs => outs
  | .error e =>
      [("error_" ++ node.node_id,
        .dict [("error", .str e), ("node_id", .str node.node_id),
               ("timestamp", .int now)])]

/-- BaseNode.get_required_parcels: the required names paired with their
parcels, keeping only those present. -/
def BaseNode.get_required_parcels (node : BaseNode) (parcels : Store) :
    List (String × Parcel) :=
  node.requires.filterMap (fun name =>
    match storeFind parcels name with
    | some p => some (name, p)
    | Option.none => Option.none)

/-- The engine's mutable state during one execute_workflow call: the
parcel store, the execution log, and the clock modelling time.time()
(incremented at each Parcel creation; actual values are irrelevant to
control flow). -/
structure EngineState where
  parcels : Store
  log : List LogEvent
  clock : Nat

/-- Append one entry to the execution log (WorkflowEngine._log). -/
def logEvent (st : EngineState) (e : LogEvent) : EngineState :=
  { st with log := st.log ++ [e] }

/-- Python str operations used by the engine, implemented over the
character sequence of the string (the library versions walk byte
positions by well-founded recursion, which the kernel cannot evaluate;
these character-list versions agree with them and with the Python
operations on every string). -/
def strContains (s : String) (c : Char) : Bool := s.data.contains c

/-- name.startswith(pre), over characters. -/
def strStartsWith (s pre : String) : Bool := pre.data.isPrefixOf s.data

/-- name.endswith(post), over characters. -/
def strEndsWith (s post : String) : Bool := post.data.isSuffixOf s.data

/-- s[n:], over characters. -/
def strDrop (s : String) (n : Nat) : String := ⟨s.data.drop n⟩

/-- s[:-n], over characters. -/
def strDropRight (s : String) (n : Nat) : String :=
  ⟨s.data.take (s.data.length - n)⟩

/-- len(s) in characters. -/
def strLength (s : String) : Nat := s.data.length

/-- s.strip(), over characters. -/
def strTrim (s : String) : String :=
  ⟨((s.data.dropWhile Char.isWhitespace).reverse.dropWhile
      Char.isWhitespace).reverse⟩

/-- s.upper() for ASCII letters, over characters. -/
def strUpper (s : String) : String := ⟨s.data.map Char.toUpper⟩

/-- The name of an indexed member of a family: f"{base}[{i}]". -/
def idxName (base : String) (i : Int) : String :=
  base ++ "[" ++ toString i ++ "]"

/-- Whether a store name is an indexed version of the required base:
name.startswith(f"{required}[") and name.endswith("]"). -/
def matchesIndexed (name required : String) : Bool :=
  strStartsWith name (required ++ "[") && strEndsWith name "]"

/-- The bracket content of an indexed name: parcel_name[len(required)+1:-1]. -/
def bracketContent (name required : String) : String :=
  strDropRight (strDrop name (strLength required + 1)) 1

/-- One digit's numeric value. -/
def digitVal (c : Char) : Nat := c.toNat - 48

/-- Continuation of the decimal-digit parse: digits with single
underscores allowed between digits (CPython's int literal grammar). -/
def digitsCore : List Char → Nat → Option Nat
  | [], acc => some acc
  | '_' :: rest, acc =>
      match rest with
      | [] => Option.none
      | c :: rest2 =>
          if c.isDigit then digitsCore rest2 (acc * 10 + digitVal c)
          else Option.none
  | c :: rest, acc =>
      if c.isDigit then digitsCore rest (acc * 10 + digitVal c)
      else Option.none

/-- A nonempty run of decimal digits (underscore separators allowed,
not leading, trailing or doubled), as CPython accepts after the sign. -/
def pyNat : List Char → Option Nat
  | [] => Option.none
  | c :: rest => if c.isDigit then digitsCore rest (digitVal c) else Option.none

/-- Sign handling of CPython's int(str). -/
def pyIntChars : List Char → Option Int
  | '+' :: rest => (pyNat rest).map Int.ofNat
  | '-' :: rest => (pyNat rest).map (fun n => -(Int.ofNat n))
  | cs => (pyNat cs).map Int.ofNat

/-- Model of CPython's int(s) for ASCII strings: optional surrounding
whitespace, optional sign, then decimal digits with single underscores
permitted between digits; None models a raised ValueError.  (CPython
additionally accepts non-ASCII decimal digits and whitespace, which no
name in this system contains.) -/
def pyInt (s : String) : Option Int := pyIntChars (strTrim s).data

/-- Insertion into a strictly ascending duplicate-free list of indices;
folding this over the discovered indices models the source's "collect
into a set, then sorted(list(indices))". -/
def insertSorted (i : Int) : List Int → List Int
  | [] => [i]
  | j :: rest =>
      if i < j then i :: j :: rest
      else if i = j then j :: rest
      else j :: insertSorted i rest

/-- WorkflowEngine._get_indexed_matches: the sorted de-duplicated
integer indices of indexed parcels matching the required names, where a
required name with an exact match is skipped and bracket contents that
fail int() parsing are silently ignored. -/
def getIndexedMatches (requires : List String) (parcels : Store) : List Int :=
  requires.foldl (fun acc required =>
    if storeHas parcels required then acc
    else (storeKeys parcels).foldl (fun acc name =>
      if matchesIndexed name required then
        match pyInt (bracketContent name required) with
        | some i => insertSorted i acc
        | Option.none => acc
      else acc) acc) []

/-- WorkflowEngine._can_node_run: every required name is present
exactly or as some indexed version, and no bracket-free declared output
already exists.  Note that this engine-private check never consults the
node's own (overridable) can_run method. -/
def canNodeRun (node : BaseNode) (parcels : Store) : Bool :=
  node.requires.all (fun required =>
    storeHas parcels required ||
    (storeKeys parcels).any (fun name => matchesIndexed name required)) &&
  !(node.outputs.any (fun output =>
    !(strContains output '[') && storeHas parcels output))

/-- The output-insertion loop of _run_node: each (name, value) pair
becomes a Parcel stamped with the current clock and the node id, is
written into the store (overwriting any existing entry, as the Python
dict assignment does), and is logged; the Bool is did_produce_outputs,
set as soon as one output is inserted. -/
def insertOutputs (node : BaseNode) (outs : List (String × Value))
    (st : EngineState) (did : Bool) : EngineState × Bool :=
  match outs with
  | [] => (st, did)
  | (name, value) :: rest =>
      let p : Parcel := { name := name, value := value, timestamp := st.clock,
                          node_id := some node.node_id }
      let st := { parcels := storeInsert st.parcels name p,
                  log := st.log ++ [.createdParcel name],
                  clock := st.clock + 1 }
      insertOutputs node rest st true

/-- The indexed branch of _run_node: for each index of the fan-out set
in order, skip it when some declared output already exists for that
index, otherwise log, run the node with that index through run_safe and
insert its outputs. -/
def runIndexed (node : BaseNode) (indices : List Int)
    (st : EngineState) (did : Bool) : EngineState × Bool :=
  match indices with
  | [] => (st, did)
  | i :: rest =>
      if node.outputs.any (fun output => storeHas st.parcels (idxName output i)) then
        runIndexed node rest st did
      else
        let st := logEvent st (.runningForIndex node.node_id i)
        let outs := node.run_safe st.parcels (some i) st.clock
        let r := insertOutputs node outs st false
        runIndexed node rest r.1 (did || r.2)

/-- The no-index branch of _run_node: log the run and its input parcel
names, invoke run_safe with no index, insert the outputs. -/
def runNodePlain (node : BaseNode) (st : EngineState) : EngineState × Bool :=
  let st := logEvent st (.running node.node_id)
  let reqs := node.get_required_parcels st.parcels
  let st := logEvent st (.inputParcels (reqs.map Prod.fst))
  let outs := node.run_safe st.parcels Option.none st.clock
  insertOutputs node outs st false

/-- WorkflowEngine._run_node: fan out over the indexed matches when
there are any, otherwise run once with no index; returns the updated
state and did_produce_outputs. -/
def runNode (node : BaseNode) (st : EngineState) : EngineState × Bool :=
  match getIndexedMatches node.requires st.parcels with
  | [] => runNodePlain node st
  | i :: rest => runIndexed node (i :: rest) st false

/-- The per-pass scan of execute_workflow: each node in caller-supplied
list order is checked with _can_node_run against the current store and,
if it can run, executed immediately (so later nodes in the same pass
see its outputs); the Nat accumulates nodes_ran. -/
def runPass (nodes : List BaseNode) (st : EngineState) (ran : Nat) :
    EngineState × Nat :=
  match nodes with
  | [] => (st, ran)
  | node :: rest =>
      if canNodeRun node st.parcels then
        let r := runNode node st
        runPass rest r.1 (if r.2 then ran + 1 else ran)
      else runPass rest st ran

/-- The iteration bound of execute_workflow (max_iterations = 100). -/
def maxIterations : Nat := 100

/-- The while loop of execute_workflow, with the remaining allowance of
passes as fuel (initially maxIterations, so fuel = maxIterations -
iteration throughout); returns the state and the final value of the
iteration counter. -/
def runLoop (nodes : List BaseNode) : Nat → Nat → EngineState →
    EngineState × Nat
  | 0, iteration, st => (st, iteration)
  | fuel + 1, iteration, st =>
      let iteration := iteration + 1
      let st := logEvent st (.iterationStarted iteration)
      let r := runPass nodes st 0
      if r.2 = 0 then (logEvent r.1 .complete, iteration)
      else runLoop nodes fuel iteration r.1

/-- The seeding step of execute_workflow: one Parcel per initial
(name, value) pair, stamped with the clock and no producer. -/
def seedParcels : List (String × Value) → EngineState → EngineState
  | [], st => st
  | (name, value) :: rest, st =>
      let p : Parcel := { name := name, value := value, timestamp := st.clock,
                          node_id := Option.none }
      seedParcels rest { st with parcels := storeInsert st.parcels name p,
                                 clock := st.clock + 1 }

/-- WorkflowEngine.execute_workflow, returning the whole final engine
state (store, log, clock).  The store and log are reset, the store is
seeded from initial_data, the start messages are logged, the loop runs
with the 100-pass bound, and the max-iterations warning is logged
exactly when the final iteration counter reached the bound. -/
def executeWorkflowState (nodes : List BaseNode)
    (initial : List (String × Value)) : EngineState :=
  let st := seedParcels initial { parcels := [], log := [], clock := 0 }
  let st := logEvent st (.startingWorkflow nodes.length)
  let st := logEvent st (.initialParcels (storeKeys st.parcels))
  let r := runLoop nodes maxIterations 0 st
  if maxIterations ≤ r.2 then logEvent r.1 .maxIterationsReached else r.1

/-- The value execute_workflow returns: the final parcel store. -/
def executeWorkflow (nodes : List BaseNode)
    (initial : List (String × Value)) : Store :=
  (executeWorkflowState nodes initial).parcels

/-- Python's dict .get("length", 0) on the metadata value followed by
use as a range bound (CollectNode).  A missing key defaults to 0; a
non-integer length (which would make Python's range() raise, a case no
modelled run reaches) is also mapped to 0. -/
def metaLength (v : Value) : Int :=
  match v with
  | .dict entries =>
      match entries.lookup "length" with
      | some (.int n) => n
      | _ => 0
  | _ => 0

/-- ArraySpreadNode from nodes.py: requires the input parcel, declares
only the metadata name as output, and at run time expands a list value
into one indexed parcel per item plus the metadata unit
{length, items, output_prefix}; a missing input parcel is a KeyError
and a non-list value raises ValueError.  The source's output_prefix
parameter is named outputBase here. -/
def mkArraySpreadNode (node_id input_parcel outputBase : String) : BaseNode :=
  { node_id := node_id
    requires := [input_parcel]
    outputs := [outputBase ++ "_meta"]
    run := fun parcels _ =>
      match storeFind parcels input_parcel with
      | Option.none => .error ("KeyError: " ++ input_parcel)
      | some p =>
          match p.value with
          | .list items =>
              .ok ((items.enum.map (fun ia =>
                      (outputBase ++ "[" ++ toString ia.1 ++ "]", ia.2)))
                   ++ [(outputBase ++ "_meta",
                        .dict [("length", .int items.length),
                               ("items", .list items),
                               ("output_prefix", .str outputBase)])])
          | _ => .error ("Input parcel '" ++ input_parcel ++ "' must be a list") }

/-- ProcessItemNode from nodes.py: declares the bare input and output
bases; at run time demands an index (ValueError otherwise), reads
input[index] (ValueError when absent) and emits output[index] with the
processed value.  The overridable _process_item method is the procItem
parameter; the source's input_prefix / output_prefix parameters are
named inputBase / outputBase here. -/
def mkProcessItemNode (node_id inputBase outputBase : String)
    (procItem : Value → Value) : BaseNode :=
  { node_id := node_id
    requires := [inputBase]
    outputs := [outputBase]
    run := fun parcels index =>
      match index with
      | Option.none => .error "ProcessItemNode requires an index to run"
      | some i =>
          let parcel_name := inputBase ++ "[" ++ toString i ++ "]"
          match storeFind parcels parcel_name with
          | Option.none =>
              .error ("Expected parcel '" ++ parcel_name ++ "' not found")
          | some p =>
              .ok [(outputBase ++ "[" ++ toString i ++ "]", procItem p.value)] }

/-- The uppercasing item processor of the spec's end-to-end example: a
ProcessItemNode subclass whose _process_item upper-cases a string item
(non-string items are returned unchanged). -/
def upperItem (v : Value) : Value :=
  match v with
  | .str s => .str (strUpper s)
  | v => v

/-- CollectNode from nodes.py: requires only the metadata parcel and
declares the collected output name; overrides can_run to also demand
that input[0..length-1] all exist, where length is read from the
metadata unit; at run time gathers the indexed values in ascending
index order, skipping absent ones.  The source's input_prefix parameter
is named inputBase here. -/
def mkCollectNode (node_id inputBase output_name meta_parcel : String) :
    BaseNode :=
  { node_id := node_id
    requires := [meta_parcel]
    outputs := [output_name]
    run := fun parcels _ =>
      match storeFind parcels meta_parcel with
      | Option.none => .error ("KeyError: " ++ meta_parcel)
      | some p =>
          let expected_length := (metaLength p.value).toNat
          let result := (List.range expected_length).filterMap (fun i =>
            match storeFind parcels (inputBase ++ "[" ++ toString i ++ "]") with
            | some q => some q.value
            | Option.none => Option.none)
          .ok [(output_name, .list result)]
    can_run := fun parcels =>
      [meta_parcel].all (storeHas parcels) &&
      storeHas parcels meta_parcel &&
      (match storeFind parcels meta_parcel with
       | Option.none => false
       | some p =>
           (List.range (metaLength p.value).toNat).all (fun i =>
             storeHas parcels (inputBase ++ "[" ++ toString i ++ "]"))) }

/-- Log entries marking the start of a pass. -/
def isIterationStart : LogEvent → Bool
  | .iterationStarted _ => true
  | _ => false

/-- The sequence of run_safe invocations that a log records for a node
id, in order: Option.none for a plain (no-index) invocation, some i
for an invocation at index i. -/
def invocationsOf (nid : String) (log : List LogEvent) : List (Option Int) :=
  log.filterMap (fun e =>
    match e with
    | .running r => if r = nid then some Option.none else Option.none
    | .runningForIndex r i => if r = nid then some (some i) else Option.none
    | _ => Option.none)

/-- The output discipline under which insertion never overwrites: every
invocation of run succeeds and returns duplicate-free output names that
are all declared — bracket-free declared output names when run without
an index, and declared-base[index] names when run with index i.  The
repository's well-formed nodes follow it; a node that raises (its
run_safe then emits the undeclared error_<node_id> name) or that emits
undeclared names (as ArraySpreadNode does for its indexed family) does
not. -/
def WellBehaved (node : BaseNode) : Prop :=
  ∀ parcels index, ∃ outs,
    node.run parcels index = .ok outs ∧
    (outs.map Prod.fst).Nodup ∧
    ∀ nv ∈ outs,
      match index with
      | Option.none => nv.1 ∈ node.outputs ∧ strContains nv.1 '[' = false
      | some i => ∃ o ∈ node.outputs, nv.1 = idxName o i

/-! ### Concrete nodes and inputs used to settle the claims -/

/-- The spread node of the spec's end-to-end example: items to item. -/
def spreadItemsNode : BaseNode := mkArraySpreadNode "spread" "items" "item"

/-- The map node of the spec's end-to-end example: item to processed,
uppercasing. -/
def mapUpperNode : BaseNode :=
  mkProcessItemNode "process" "item" "processed" upperItem

/-- The collect node of the spec's end-to-end example: processed plus
item_meta to result. -/
def collectResultNode : BaseNode :=
  mkCollectNode "collect" "processed" "result" "item_meta"

/-- The seed of the spec's end-to-end example. -/
def seedItems : List (String × Value) :=
  [("items", .list [.str "a", .str "b", .str "c"])]

/-- A spread node whose indexed outputs collide with a seeded name
(used to exhibit an overwrite). -/
def spreadUsersNode : BaseNode := mkArraySpreadNode "spread" "users" "user"

/-- Seed containing both the list to spread and a pre-existing indexed
name that the spread node will emit again. -/
def seedWithCollision : List (String × Value) :=
  [("users", .list [.str "a"]), ("user[0]", .str "seeded")]

/-- Seed providing only the metadata unit (length 1) and none of the
indexed items a collector waits for. -/
def seedMetaOnly : List (String × Value) :=
  [("item_meta", .dict [("length", .int 1), ("items", .list [.str "x"])])]

/-- A node whose run always raises. -/
def failNode : BaseNode :=
  { node_id := "f", requires := [], outputs := ["fo"],
    run := fun _ _ => .error "boom" }

/-- An independent node that succeeds immediately. -/
def okNode : BaseNode :=
  { node_id := "ok", requires := [], outputs := ["good"],
    run := fun _ _ => .ok [("good", .str "fine")] }

/-- A node depending on okNode's output; listed before okNode it only
becomes ready in the second pass. -/
def lateNode : BaseNode :=
  { node_id := "late", requires := ["good"], outputs := ["late_out"],
    run := fun parcels _ =>
      match storeFind parcels "good" with
      | some p => .ok [("late_out", p.value)]
      | Option.none => .error "missing" }

/-- A node that makes progress on each of the first 99 passes and then
returns no outputs, so the loop converges cleanly exactly on pass 100:
its run emits one fresh unit while the store holds fewer than 99. -/
def slowNode : BaseNode :=
  { node_id := "c", requires := [], outputs := ["never"],
    run := fun parcels _ =>
      if parcels.length < 99 then
        .ok [("t" ++ toString parcels.length, .int 0)]
      else .ok [] }

/-- A mapping node fanning out over the family b, emitting o[i]. -/
def fanNode : BaseNode :=
  { node_id := "fan", requires := ["b"], outputs := ["o"],
    run := fun _ index =>
      match index with
      | some i => .ok [("o[" ++ toString i ++ "]", .int i)]
      | Option.none => .error "no index" }

/-- Seed with indexed units at indices 10 and 2 (in that store order). -/
def seedTenTwo : List (String × Value) := [("b[10]", .int 0), ("b[2]", .int 0)]

/-- A well-behaved source node: emits its declared output under the
invocation's naming convention. -/
def wbNode : BaseNode :=
  { node_id := "wb", requires := [], outputs := ["w"],
    run := fun _ index =>
      match index with
      | Option.none => .ok [("w", .int 1)]
      | some i => .ok [(idxName "w" i, .int 1)] }

/-- Chain head: no requirement, emits a with the given payload. -/
def chainHead (v : Value) : BaseNode :=
  { node_id := "A", requires := [], outputs := ["a"],
    run := fun _ _ => .ok [("a", v)] }

/-- Chain tail: requires a, relays its value under the name b. -/
def chainTail : BaseNode :=
  { node_id := "B", requires := ["a"], outputs := ["b"],
    run := fun parcels _ =>
      match storeFind parcels "a" with
      | some p => .ok [("b", p.value)]
      | Option.none => .error "missing a" }

/-- A parcel with the given name and no payload, for store literals. -/
def namedParcel (n : String) : Parcel := ⟨n, .none, 0, Option.none⟩

/-! ## Store lemmas -/

theorem storeFind_insert (s : Store) (n m : String) (p : Parcel) :
    storeFind (storeInsert s n p) m = if m = n then some p else storeFind s m := by
  induction s with
  | nil =>
      simp only [storeInsert, storeFind]
      by_cases h : m = n
      · simp [h]
      · have hnm : ¬ n = m := fun hh => h hh.symm
        simp [h, hnm]
  | cons hd tl ih =>
      obtain ⟨a, q⟩ := hd
      simp only [storeInsert]
      by_cases h1 : a = n
      · subst h1
        simp only [if_pos rfl, storeFind]
        by_cases h2 : a = m
        · simp [h2]
        · have hma : ¬ m = a := fun hh => h2 hh.symm
          simp [h2, hma]
      · simp only [if_neg h1, storeFind]
        by_cases h2 : a = m
        · have hmn : ¬ m = n := fun hh => h1 (h2.trans hh)
          simp [h2, hmn]
        · simp [h2, ih]

theorem storeHas_insert (s : Store) (n m : String) (p : Parcel) :
    storeHas (storeInsert s n p) m = (m = n || storeHas s m) := by
  simp only [storeHas, storeFind_insert]
  by_cases h : m = n <;> simp [h]

theorem storeHas_insert_mono (s : Store) (n m : String) (p : Parcel)
    (h : storeHas s m = true) : storeHas (storeInsert s n p) m = true := by
  simp [storeHas_insert, h]

theorem storeFind_insert_fresh (s : Store) (n m : String) (p q : Parcel)
    (hfresh : storeHas s n = false) (h : storeFind s m = some q) :
    storeFind (storeInsert s n p) m = some q := by
  rw [storeFind_insert]
  by_cases hm : m = n
  · subst hm
    simp [storeHas, h] at hfresh
  · simp [hm, h]

theorem storeHas_iff_find (s : Store) (m : String) :
    storeHas s m = true ↔ ∃ p, storeFind s m = some p := by
  simp [storeHas, Option.isSome_iff_exists]

/-! ## insertOutputs lemmas -/

theorem insertOutputs_log (node : BaseNode) (outs : List (String × Value))
    (st : EngineState) (did : Bool) :
    ((insertOutputs node outs st did).1).log
      = st.log ++ outs.map (fun nv => LogEvent.createdParcel nv.1) := by
  induction outs generalizing st did with
  | nil => simp [insertOutputs]
  | cons nv rest ih => simp [insertOutputs, ih, List.append_assoc]

theorem insertOutputs_has_mono (node : BaseNode) (outs : List (String × Value))
    (st : EngineState) (did : Bool) (m : String)
    (h : storeHas st.parcels m = true) :
    storeHas ((insertOutputs node outs st did).1).parcels m = true := by
  induction outs generalizing st did with
  | nil => simpa [insertOutputs] using h
  | cons nv rest ih =>
      simp only [insertOutputs]
      exact ih _ _ (storeHas_insert_mono _ _ _ _ h)

theorem insertOutputs_find_fresh (node : BaseNode)
    (outs : List (String × Value)) (st : EngineState) (did : Bool)
    (hfresh : ∀ nv ∈ outs, storeHas st.parcels nv.1 = false)
    (hnodup : (outs.map Prod.fst).Nodup) :
    ∀ m q, storeFind st.parcels m = some q →
      storeFind ((insertOutputs node outs st did).1).parcels m = some q := by
  induction outs generalizing st did with
  | nil => intro m q h; simpa [insertOutputs] using h
  | cons nv rest ih =>
      intro m q h
      simp only [insertOutputs]
      have hfreshHead : storeHas st.parcels nv.1 = false :=
        hfresh nv (List.mem_cons_self nv rest)
      have hnd : (nv.1 :: rest.map Prod.fst).Nodup := by simpa using hnodup
      have hnotin : nv.1 ∉ rest.map Prod.fst := (List.nodup_cons.mp hnd).1
      apply ih
      · intro x hx
        rw [storeHas_insert]
        have hx1 : storeHas st.parcels x.1 = false := hfresh x (List.mem_cons_of_mem nv hx)
        have hx2 : ¬ x.1 = nv.1 := by
          intro hcontra
          exact hnotin (hcontra ▸ List.mem_map_of_mem Prod.fst hx)
        simp [hx1, hx2]
      · exact (List.nodup_cons.mp hnd).2
      · exact storeFind_insert_fresh _ _ _ _ _ hfreshHead h

theorem countP_insertOutputs (q : LogEvent → Bool)
    (hq : ∀ s, q (.createdParcel s) = false) (node : BaseNode)
    (outs : List (String × Value)) (st : EngineState) (did : Bool) :
    ((insertOutputs node outs st did).1).log.countP q = st.log.countP q := by
  rw [insertOutputs_log, List.countP_append]
  have : (outs.map (fun nv => LogEvent.createdParcel nv.1)).countP q = 0 := by
    rw [List.countP_eq_zero]
    intro e he
    obtain ⟨nv, _, rfl⟩ := List.mem_map.mp he
    simp [hq]
  simp [this]

theorem invocationsOf_insertOutputs (nid : String) (node : BaseNode)
    (outs : List (String × Value)) (st : EngineState) (did : Bool) :
    invocationsOf nid ((insertOutputs node outs st did).1).log
      = invocationsOf nid st.log := by
  rw [invocationsOf, insertOutputs_log, List.filterMap_append]
  have : (outs.map (fun nv => LogEvent.createdParcel nv.1)).filterMap
      (fun e =>
        match e with
        | .running r => if r = nid then some Option.none else Option.none
        | .runningForIndex r i => if r = nid then some (some i) else Option.none
        | _ => Option.none) = [] := by
    induction outs with
    | nil => rfl
    | cons nv rest ih => simp [ih]
  rw [this, List.append_nil]
  rfl

/-! ## runIndexed and runNode lemmas -/

theorem logEvent_parcels (st : EngineState) (e : LogEvent) :
    (logEvent st e).parcels = st.parcels := rfl

theorem logEvent_log (st : EngineState) (e : LogEvent) :
    (logEvent st e).log = st.log ++ [e] := rfl

theorem logEvent_clock (st : EngineState) (e : LogEvent) :
    (logEvent st e).clock = st.clock := rfl

theorem runIndexed_has_mono (node : BaseNode) (indices : List Int)
    (st : EngineState) (did : Bool) (m : String)
    (h : storeHas st.parcels m = true) :
    storeHas ((runIndexed node indices st did).1).parcels m = true := by
  induction indices generalizing st did with
  | nil => simpa [runIndexed] using h
  | cons i rest ih =>
      simp only [runIndexed]
      by_cases hskip :
          (node.outputs.any (fun output => storeHas st.parcels (idxName output i))) = true
      · rw [if_pos hskip]; exact ih _ _ h
      · rw [if_neg hskip]
        exact ih _ _ (insertOutputs_has_mono _ _ _ _ _ h)

theorem runIndexed_find_pres (node : BaseNode) (hwb : WellBehaved node)
    (indices : List Int) (st : EngineState) (did : Bool) :
    ∀ m q, storeFind st.parcels m = some q →
      storeFind ((runIndexed node indices st did).1).parcels m = some q := by
  induction indices generalizing st did with
  | nil => intro m q h; simpa [runIndexed] using h
  | cons i rest ih =>
      intro m q h
      simp only [runIndexed]
      by_cases hskip :
          (node.outputs.any (fun output => storeHas st.parcels (idxName output i))) = true
      · rw [if_pos hskip]; exact ih _ _ _ _ h
      · rw [if_neg hskip]
        obtain ⟨outs, hrun, hnodup, hdecl⟩ := hwb st.parcels (some i)
        have hsafe :
            node.run_safe (logEvent st (.runningForIndex node.node_id i)).parcels
              (some i) (logEvent st (.runningForIndex node.node_id i)).clock = outs := by
          simp [BaseNode.run_safe, logEvent_parcels, hrun]
        apply ih
        rw [hsafe]
        apply insertOutputs_find_fresh
        · intro nv hnv
          obtain ⟨o, ho, hname⟩ := hdecl nv hnv
          rw [logEvent_parcels, hname]
          by_contra hcontra
          have htrue : storeHas st.parcels (idxName o i) = true := by
            cases hh : storeHas st.parcels (idxName o i)
            · exact absurd hh hcontra
            · rfl
          exact hskip (List.any_eq_true.mpr ⟨o, ho, htrue⟩)
        · exact hnodup
        · exact h

theorem countP_runIndexed (q : LogEvent → Bool)
    (hqc : ∀ s, q (.createdParcel s) = false)
    (hqr : ∀ s i, q (.runningForIndex s i) = false) (node : BaseNode)
    (indices : List Int) (st : EngineState) (did : Bool) :
    ((runIndexed node indices st did).1).log.countP q = st.log.countP q := by
  induction indices generalizing st did with
  | nil => simp [runIndexed]
  | cons i rest ih =>
      simp only [runIndexed]
      by_cases hskip :
          (node.outputs.any (fun output => storeHas st.parcels (idxName output i))) = true
      · rw [if_pos hskip]; exact ih _ _
      · rw [if_neg hskip]
        rw [ih, countP_insertOutputs q hqc]
        simp [logEvent_log, List.countP_append, hqr]

theorem runNode_eq_plain (node : BaseNode) (st : EngineState)
    (hm : getIndexedMatches node.requires st.parcels = []) :
    runNode node st = runNodePlain node st := by
  simp [runNode, hm]

theorem runNode_eq_indexed (node : BaseNode) (st : EngineState)
    (i : Int) (rest : List Int)
    (hm : getIndexedMatches node.requires st.parcels = i :: rest) :
    runNode node st = runIndexed node (i :: rest) st false := by
  simp [runNode, hm]

theorem countP_runNodePlain (q : LogEvent → Bool)
    (hqc : ∀ s, q (.createdParcel s) = false)
    (hqn : ∀ s, q (.running s) = false)
    (hqi : ∀ l, q (.inputParcels l) = false) (node : BaseNode)
    (st : EngineState) :
    ((runNodePlain node st).1).log.countP q = st.log.countP q := by
  rw [runNodePlain]
  rw [countP_insertOutputs q hqc]
  simp [logEvent_log, List.countP_append, hqn, hqi]

theorem countP_runNode (q : LogEvent → Bool)
    (hqc : ∀ s, q (.createdParcel s) = false)
    (hqr : ∀ s i, q (.runningForIndex s i) = false)
    (hqn : ∀ s, q (.running s) = false)
    (hqi : ∀ l, q (.inputParcels l) = false) (node : BaseNode)
    (st : EngineState) :
    ((runNode node st).1).log.countP q = st.log.countP q := by
  cases hm : getIndexedMatches node.requires st.parcels with
  | nil => rw [runNode_eq_plain node st hm]; exact countP_runNodePlain q hqc hqn hqi node st
  | cons i rest =>
      rw [runNode_eq_indexed node st i rest hm]
      exact countP_runIndexed q hqc hqr node _ st false

theorem runNode_has_mono (node : BaseNode) (st : EngineState) (m : String)
    (h : storeHas st.parcels m = true) :
    storeHas ((runNode node st).1).parcels m = true := by
  cases hm : getIndexedMatches node.requires st.parcels with
  | nil =>
      rw [runNode_eq_plain node st hm, runNodePlain]
      exact insertOutputs_has_mono _ _ _ _ _ h
  | cons i rest =>
      rw [runNode_eq_indexed node st i rest hm]
      exact runIndexed_has_mono _ _ _ _ _ h

theorem runNodePlain_find_pres (node : BaseNode) (st : EngineState)
    (hwb : WellBehaved node) (hcan : canNodeRun node st.parcels = true) :
    ∀ m q, storeFind st.parcels m = some q →
      storeFind ((runNodePlain node st).1).parcels m = some q := by
  intro m q h
  rw [runNodePlain]
  obtain ⟨outs, hrun, hnodup, hdecl⟩ := hwb st.parcels Option.none
  have hsafe : node.run_safe st.parcels Option.none st.clock = outs := by
    simp [BaseNode.run_safe, hrun]
  simp only [logEvent_parcels, logEvent_clock]
  rw [hsafe]
  apply insertOutputs_find_fresh
  · intro nv hnv
    obtain ⟨ho, hbr⟩ := hdecl nv hnv
    simp only [logEvent_parcels]
    have hcan2 := (Bool.and_eq_true _ _ |>.mp hcan).2
    by_contra hcontra
    have htrue : storeHas st.parcels nv.1 = true := by
      cases hh : storeHas st.parcels nv.1
      · exact absurd hh hcontra
      · rfl
    have hany : node.outputs.any (fun output =>
        !(strContains output '[') && storeHas st.parcels output) = true :=
      List.any_eq_true.mpr ⟨nv.1, ho, by simp [hbr, htrue]⟩
    simp [hany] at hcan2
  · exact hnodup
  · exact h

theorem runNode_find_pres (node : BaseNode) (st : EngineState)
    (hwb : WellBehaved node) (hcan : canNodeRun node st.parcels = true) :
    ∀ m q, storeFind st.parcels m = some q →
      storeFind ((runNode node st).1).parcels m = some q := by
  intro m q h
  cases hm : getIndexedMatches node.requires st.parcels with
  | nil =>
      rw [runNode_eq_plain node st hm]
      exact runNodePlain_find_pres node st hwb hcan m q h
  | cons i rest =>
      rw [runNode_eq_indexed node st i rest hm]
      exact runIndexed_find_pres node hwb _ st false m q h

/-! ## runPass and runLoop lemmas -/

theorem runPass_has_mono (nodes : List BaseNode) (st : EngineState)
    (ran : Nat) (m : String) (h : storeHas st.parcels m = true) :
    storeHas ((runPass nodes st ran).1).parcels m = true := by
  induction nodes generalizing st ran with
  | nil => simpa [runPass] using h
  | cons node rest ih =>
      simp only [runPass]
      by_cases hcan : canNodeRun node st.parcels = true
      · rw [if_pos hcan]
        exact ih _ _ (runNode_has_mono node st m h)
      · rw [if_neg hcan]
        exact ih _ _ h

theorem runPass_find_pres (nodes : List BaseNode) (st : EngineState)
    (ran : Nat) (hwb : ∀ n ∈ nodes, WellBehaved n) :
    ∀ m q, storeFind st.parcels m = some q →
      storeFind ((runPass nodes st ran).1).parcels m = some q := by
  induction nodes generalizing st ran with
  | nil => intro m q h; simpa [runPass] using h
  | cons node rest ih =>
      intro m q h
      simp only [runPass]
      have hwbrest : ∀ n ∈ rest, WellBehaved n :=
        fun n hn => hwb n (List.mem_cons_of_mem node hn)
      by_cases hcan : canNodeRun node st.parcels = true
      · rw [if_pos hcan]
        exact ih _ _ hwbrest m q
          (runNode_find_pres node st (hwb node (List.mem_cons_self node rest)) hcan m q h)
      · rw [if_neg hcan]
        exact ih _ _ hwbrest m q h

theorem countP_runPass (q : LogEvent → Bool)
    (hqc : ∀ s, q (.createdParcel s) = false)
    (hqr : ∀ s i, q (.runningForIndex s i) = false)
    (hqn : ∀ s, q (.running s) = false)
    (hqi : ∀ l, q (.inputParcels l) = false) (nodes : List BaseNode)
    (st : EngineState) (ran : Nat) :
    ((runPass nodes st ran).1).log.countP q = st.log.countP q := by
  induction nodes generalizing st ran with
  | nil => simp [runPass]
  | cons node rest ih =>
      simp only [runPass]
      by_cases hcan : canNodeRun node st.parcels = true
      · rw [if_pos hcan, ih, countP_runNode q hqc hqr hqn hqi]
      · rw [if_neg hcan, ih]

theorem runLoop_find_pres (nodes : List BaseNode) (fuel iter : Nat)
    (st : EngineState) (hwb : ∀ n ∈ nodes, WellBehaved n) :
    ∀ m q, storeFind st.parcels m = some q →
      storeFind ((runLoop nodes fuel iter st).1).parcels m = some q := by
  induction fuel generalizing iter st with
  | zero => intro m q h; simpa [runLoop] using h
  | succ fuel ih =>
      intro m q h
      simp only [runLoop]
      have hpres := runPass_find_pres nodes
        (logEvent st (.iterationStarted (iter + 1))) 0 hwb m q h
      by_cases hran : (runPass nodes (logEvent st (.iterationStarted (iter + 1))) 0).2 = 0
      · rw [if_pos hran]
        exact hpres
      · rw [if_neg hran]
        exact ih _ _ m q hpres

theorem seedParcels_log (initial : List (String × Value)) (st : EngineState) :
    (seedParcels initial st).log = st.log := by
  induction initial generalizing st with
  | nil => simp [seedParcels]
  | cons nv rest ih => simp [seedParcels, ih]

theorem runLoop_spec (nodes : List BaseNode) (fuel iter : Nat)
    (st : EngineState) :
    ∃ k, (runLoop nodes fuel iter st).2 = iter + k ∧ k ≤ fuel ∧
      ((runLoop nodes fuel iter st).1).log.countP isIterationStart
        = st.log.countP isIterationStart + k ∧
      ((runLoop nodes fuel iter st).1).log.countP
          (fun e => e == LogEvent.maxIterationsReached)
        = st.log.countP (fun e => e == LogEvent.maxIterationsReached) := by
  induction fuel generalizing iter st with
  | zero => exact ⟨0, by simp [runLoop]⟩
  | succ fuel ih =>
      simp only [runLoop]
      have hiterP : ∀ (st2 : EngineState),
          ((runPass nodes st2 0).1).log.countP isIterationStart
            = st2.log.countP isIterationStart :=
        fun st2 => countP_runPass isIterationStart (fun _ => rfl) (fun _ _ => rfl)
          (fun _ => rfl) (fun _ => rfl) nodes st2 0
      have hmaxP : ∀ (st2 : EngineState),
          ((runPass nodes st2 0).1).log.countP
              (fun e => e == LogEvent.maxIterationsReached)
            = st2.log.countP (fun e => e == LogEvent.maxIterationsReached) :=
        fun st2 => countP_runPass _ (fun s => by simp) (fun s i => by simp)
          (fun s => by simp) (fun l => by simp) nodes st2 0
      by_cases hran : (runPass nodes (logEvent st (.iterationStarted (iter + 1))) 0).2 = 0
      · refine ⟨1, ?_⟩
        rw [if_pos hran]
        refine ⟨rfl, by omega, ?_, ?_⟩
        · rw [logEvent_log, List.countP_append, hiterP, logEvent_log,
            List.countP_append]
          simp [isIterationStart]
        · rw [logEvent_log, List.countP_append, hmaxP, logEvent_log,
            List.countP_append]
          simp
      · rw [if_neg hran]
        obtain ⟨k, hk1, hk2, hk3, hk4⟩ :=
          ih (iter + 1) ((runPass nodes (logEvent st (.iterationStarted (iter + 1))) 0).1)
        refine ⟨k + 1, by omega, by omega, ?_, ?_⟩
        · rw [hk3, hiterP, logEvent_log, List.countP_append]
          simp [isIterationStart]
          omega
        · rw [hk4, hmaxP, logEvent_log, List.countP_append]
          simp

/-! ## getIndexedMatches lemmas -/

theorem mem_insertSorted (i : Int) (l : List Int) (j : Int) :
    j ∈ insertSorted i l ↔ j = i ∨ j ∈ l := by
  induction l with
  | nil => simp [insertSorted]
  | cons k rest ih =>
      simp only [insertSorted]
      by_cases h1 : i < k
      · rw [if_pos h1]
        simp only [List.mem_cons]
      · by_cases h2 : i = k
        · subst h2
          rw [if_neg h1, if_pos rfl]
          simp only [List.mem_cons]
          tauto
        · rw [if_neg h1, if_neg h2]
          simp only [List.mem_cons, ih]
          tauto

theorem pairwise_insertSorted (i : Int) (l : List Int)
    (h : l.Pairwise (· < ·)) : (insertSorted i l).Pairwise (· < ·) := by
  induction l with
  | nil => simp [insertSorted]
  | cons k rest ih =>
      obtain ⟨hk, hrest⟩ := List.pairwise_cons.mp h
      simp only [insertSorted]
      by_cases h1 : i < k
      · rw [if_pos h1]
        exact List.Pairwise.cons
          (fun x hx => by
            rcases List.mem_cons.mp hx with hx | hx
            · exact hx ▸ h1
            · exact h1.trans (hk x hx)) h
      · by_cases h2 : i = k
        · rw [if_neg h1, if_pos h2]; exact h
        · rw [if_neg h1, if_neg h2]
          have hki : k < i := by omega
          exact List.Pairwise.cons
            (fun x hx => by
              rcases (mem_insertSorted i rest x).mp hx with hx | hx
              · exact hx ▸ hki
              · exact hk x hx) (ih hrest)

theorem mem_indexScan (r : String) (names : List String) (acc : List Int)
    (j : Int) :
    j ∈ names.foldl (fun acc name =>
      if matchesIndexed name r then
        match pyInt (bracketContent name r) with
        | some i => insertSorted i acc
        | Option.none => acc
      else acc) acc ↔
    j ∈ acc ∨ ∃ name ∈ names, matchesIndexed name r = true ∧
      pyInt (bracketContent name r) = some j := by
  induction names generalizing acc with
  | nil => simp
  | cons nm rest ih =>
      simp only [List.foldl_cons]
      by_cases hm : matchesIndexed nm r = true
      · cases hp : pyInt (bracketContent nm r) with
        | none =>
            rw [hm, if_pos rfl]
            have hred : (match (Option.none : Option Int) with
                | some i => insertSorted i acc
                | Option.none => acc) = acc := rfl
            rw [hred, ih]
            simp only [List.mem_cons]
            constructor
            · rintro (h | ⟨name, hmem, hma, hpy⟩)
              · exact Or.inl h
              · exact Or.inr ⟨name, Or.inr hmem, hma, hpy⟩
            · rintro (h | ⟨name, hmem | hmem, hma, hpy⟩)
              · exact Or.inl h
              · rw [hmem] at hpy
                rw [hp] at hpy
                cases hpy
              · exact Or.inr ⟨name, hmem, hma, hpy⟩
        | some i =>
            rw [hm, if_pos rfl]
            have hred : (match (some i : Option Int) with
                | some i => insertSorted i acc
                | Option.none => acc) = insertSorted i acc := rfl
            rw [hred, ih]
            simp only [mem_insertSorted, List.mem_cons]
            constructor
            · rintro (⟨h | h⟩ | ⟨name, hmem, hma, hpy⟩)
              · exact Or.inr ⟨nm, Or.inl rfl, hm, h ▸ hp⟩
              · exact Or.inl h
              · exact Or.inr ⟨name, Or.inr hmem, hma, hpy⟩
            · rintro (h | ⟨name, hmem | hmem, hma, hpy⟩)
              · exact Or.inl (Or.inr h)
              · rw [hmem] at hpy
                rw [hp] at hpy
                exact Or.inl (Or.inl (by injection hpy with hh; omega))
              · exact Or.inr ⟨name, hmem, hma, hpy⟩
      · rw [if_neg hm]
        rw [ih]
        simp only [List.mem_cons]
        constructor
        · rintro (h | ⟨name, hmem, hma, hpy⟩)
          · exact Or.inl h
          · exact Or.inr ⟨name, Or.inr hmem, hma, hpy⟩
        · rintro (h | ⟨name, hmem | hmem, hma, hpy⟩)
          · exact Or.inl h
          · exact absurd (hmem ▸ hma) hm
          · exact Or.inr ⟨name, hmem, hma, hpy⟩

theorem mem_getIndexedMatchesAux (requires : List String) (parcels : Store)
    (acc : List Int) (j : Int) :
    j ∈ requires.foldl (fun acc required =>
      if storeHas parcels required then acc
      else (storeKeys parcels).foldl (fun acc name =>
        if matchesIndexed name required then
          match pyInt (bracketContent name required) with
          | some i => insertSorted i acc
          | Option.none => acc
        else acc) acc) acc ↔
    j ∈ acc ∨ ∃ r ∈ requires, storeHas parcels r = false ∧
      ∃ name ∈ storeKeys parcels, matchesIndexed name r = true ∧
        pyInt (bracketContent name r) = some j := by
  induction requires generalizing acc with
  | nil => simp
  | cons r rest ih =>
      simp only [List.foldl_cons]
      by_cases hr : storeHas parcels r = true
      · rw [if_pos hr, ih]
        simp only [List.mem_cons]
        constructor
        · rintro (h | ⟨r2, hmem, hhas, hrest2⟩)
          · exact Or.inl h
          · exact Or.inr ⟨r2, Or.inr hmem, hhas, hrest2⟩
        · rintro (h | ⟨r2, hmem | hmem, hhas, hrest2⟩)
          · exact Or.inl h
          · rw [hmem] at hhas
            rw [hr] at hhas
            cases hhas
          · exact Or.inr ⟨r2, hmem, hhas, hrest2⟩
      · have hr' : storeHas parcels r = false := by
          cases hh : storeHas parcels r
          · rfl
          · exact absurd hh hr
        rw [if_neg hr, ih]
        rw [mem_indexScan]
        simp only [List.mem_cons]
        constructor
        · rintro ((h | h) | ⟨r2, hmem, hhas, hrest2⟩)
          · exact Or.inl h
          · exact Or.inr ⟨r, Or.inl rfl, hr', h⟩
          · exact Or.inr ⟨r2, Or.inr hmem, hhas, hrest2⟩
        · rintro (h | ⟨r2, hmem | hmem, hhas, hrest2⟩)
          · exact Or.inl (Or.inl h)
          · exact Or.inl (Or.inr (hmem ▸ hrest2))
          · exact Or.inr ⟨r2, hmem, hhas, hrest2⟩

theorem mem_getIndexedMatches (requires : List String) (parcels : Store)
    (j : Int) :
    j ∈ getIndexedMatches requires parcels ↔
      ∃ r ∈ requires, storeHas parcels r = false ∧
        ∃ name ∈ storeKeys parcels, matchesIndexed name r = true ∧
          pyInt (bracketContent name r) = some j := by
  rw [getIndexedMatches, mem_getIndexedMatchesAux]
  simp

theorem pairwise_indexScan (r : String) (names : List String)
    (acc : List Int) (h : acc.Pairwise (· < ·)) :
    (names.foldl (fun acc name =>
      if matchesIndexed name r then
        match pyInt (bracketContent name r) with
        | some i => insertSorted i acc
        | Option.none => acc
      else acc) acc).Pairwise (· < ·) := by
  induction names generalizing acc with
  | nil => simpa
  | cons nm rest ih =>
      simp only [List.foldl_cons]
      by_cases hm : matchesIndexed nm r = true
      · cases hp : pyInt (bracketContent nm r) with
        | none => rw [hm, if_pos rfl]; exact ih _ h
        | some i => rw [hm, if_pos rfl]; exact ih _ (pairwise_insertSorted i acc h)
      · rw [if_neg hm]; exact ih _ h

theorem pairwise_getIndexedMatches (requires : List String) (parcels : Store) :
    (getIndexedMatches requires parcels).Pairwise (· < ·) := by
  rw [getIndexedMatches]
  have haux : ∀ (rs : List String) (acc : List Int), acc.Pairwise (· < ·) →
      (rs.foldl (fun acc required =>
        if storeHas parcels required then acc
        else (storeKeys parcels).foldl (fun acc name =>
          if matchesIndexed name required then
            match pyInt (bracketContent name required) with
            | some i => insertSorted i acc
            | Option.none => acc
          else acc) acc) acc).Pairwise (· < ·) := by
    intro rs
    induction rs with
    | nil => intro acc h; simpa
    | cons r rest ih =>
        intro acc h
        simp only [List.foldl_cons]
        by_cases hr : storeHas parcels r = true
        · rw [if_pos hr]; exact ih _ h
        · rw [if_neg hr]; exact ih _ (pairwise_indexScan r _ acc h)
  exact haux requires [] (by simp)

theorem getIndexedMatches_filter (requires : List String) (parcels : Store) :
    getIndexedMatches requires parcels
      = getIndexedMatches (requires.filter (fun r => !(storeHas parcels r)))
          parcels := by
  rw [getIndexedMatches, getIndexedMatches]
  have haux : ∀ (rs : List String) (acc : List Int),
      rs.foldl (fun acc required =>
        if storeHas parcels required then acc
        else (storeKeys parcels).foldl (fun acc name =>
          if matchesIndexed name required then
            match pyInt (bracketContent name required) with
            | some i => insertSorted i acc
            | Option.none => acc
          else acc) acc) acc
      = (rs.filter (fun r => !(storeHas parcels r))).foldl (fun acc required =>
        if storeHas parcels required then acc
        else (storeKeys parcels).foldl (fun acc name =>
          if matchesIndexed name required then
            match pyInt (bracketContent name required) with
            | some i => insertSorted i acc
            | Option.none => acc
          else acc) acc) acc := by
    intro rs
    induction rs with
    | nil => intro acc; rfl
    | cons r rest ih =>
        intro acc
        by_cases hr : storeHas parcels r = true
        · rw [List.foldl_cons, if_pos hr]
          have hfil : List.filter (fun r => !storeHas parcels r) (r :: rest)
              = List.filter (fun r => !storeHas parcels r) rest := by
            simp [List.filter_cons, hr]
          rw [hfil]
          exact ih _
        · have hr' : storeHas parcels r = false := by
            cases hh : storeHas parcels r
            · rfl
            · exact absurd hh hr
          rw [List.foldl_cons, if_neg hr]
          have hfil : List.filter (fun r => !storeHas parcels r) (r :: rest)
              = r :: List.filter (fun r => !storeHas parcels r) rest := by
            simp [List.filter_cons, hr']
          rw [hfil, List.foldl_cons, if_neg hr]
          exact ih _
  exact haux requires []

/-! ## Invocation-sequence and skip lemmas -/

theorem invocationsOf_append (nid : String) (l1 l2 : List LogEvent) :
    invocationsOf nid (l1 ++ l2)
      = invocationsOf nid l1 ++ invocationsOf nid l2 := by
  simp [invocationsOf, List.filterMap_append]

theorem invocationsOf_runIndexed (node : BaseNode) (indices : List Int)
    (st : EngineState) (did : Bool) :
    ∃ invoked : List Int, invoked.Sublist indices ∧
      invocationsOf node.node_id ((runIndexed node indices st did).1).log
        = invocationsOf node.node_id st.log ++ invoked.map some := by
  induction indices generalizing st did with
  | nil => exact ⟨[], List.nil_sublist _, by simp [runIndexed]⟩
  | cons i rest ih =>
      simp only [runIndexed]
      by_cases hskip :
          (node.outputs.any (fun output => storeHas st.parcels (idxName output i))) = true
      · rw [if_pos hskip]
        obtain ⟨inv, hsub, heq⟩ := ih st did
        exact ⟨inv, List.Sublist.cons i hsub, heq⟩
      · rw [if_neg hskip]
        obtain ⟨inv, hsub, heq⟩ := ih _ _
        refine ⟨i :: inv, List.Sublist.cons₂ i hsub, ?_⟩
        rw [heq, invocationsOf_insertOutputs, logEvent_log, invocationsOf_append]
        have hsingle : invocationsOf node.node_id [.runningForIndex node.node_id i]
            = [some i] := by
          simp [invocationsOf]
        rw [hsingle, List.map_cons, List.append_assoc]
        rfl

theorem invocationsOf_runNodePlain (node : BaseNode) (st : EngineState) :
    invocationsOf node.node_id ((runNodePlain node st).1).log
      = invocationsOf node.node_id st.log ++ [Option.none] := by
  rw [runNodePlain]
  rw [invocationsOf_insertOutputs, logEvent_log, logEvent_log,
    List.append_assoc, invocationsOf_append]
  have : invocationsOf node.node_id
      ([LogEvent.running node.node_id]
        ++ [.inputParcels ((node.get_required_parcels
            (logEvent st (.running node.node_id)).parcels).map Prod.fst)])
      = [Option.none] := by
    simp [invocationsOf]
  rw [this]

theorem count_runIndexed_skip (node : BaseNode) (i : Int)
    (indices : List Int) (st : EngineState) (did : Bool)
    (hhas : node.outputs.any (fun o => storeHas st.parcels (idxName o i)) = true) :
    ((runIndexed node indices st did).1).log.count
        (LogEvent.runningForIndex node.node_id i)
      = st.log.count (LogEvent.runningForIndex node.node_id i) := by
  induction indices generalizing st did with
  | nil => simp [runIndexed]
  | cons j rest ih =>
      simp only [runIndexed]
      by_cases hskip :
          (node.outputs.any (fun output => storeHas st.parcels (idxName output j))) = true
      · rw [if_pos hskip]
        exact ih st did hhas
      · rw [if_neg hskip]
        have hij : ¬ j = i := fun hji => hskip (hji ▸ hhas)
        obtain ⟨o, ho, hso⟩ := List.any_eq_true.mp hhas
        have hhas2 : node.outputs.any (fun o =>
            storeHas ((insertOutputs node
              (node.run_safe (logEvent st (.runningForIndex node.node_id j)).parcels
                (some j) (logEvent st (.runningForIndex node.node_id j)).clock)
              (logEvent st (.runningForIndex node.node_id j)) false).1).parcels
              (idxName o i)) = true :=
          List.any_eq_true.mpr ⟨o, ho, insertOutputs_has_mono _ _ _ _ _ hso⟩
        rw [ih _ _ hhas2]
        rw [insertOutputs_log, List.count_append, logEvent_log, List.count_append]
        have h1 : List.count (LogEvent.runningForIndex node.node_id i)
            [LogEvent.runningForIndex node.node_id j] = 0 := by
          rw [List.count_eq_zero]
          intro hmem
          rw [List.mem_singleton] at hmem
          injection hmem with hn hi
          exact hij hi.symm
        have h2 : ∀ (outs : List (String × Value)),
            List.count (LogEvent.runningForIndex node.node_id i)
              (outs.map (fun nv => LogEvent.createdParcel nv.1)) = 0 := by
          intro outs
          rw [List.count_eq_zero]
          intro hmem
          obtain ⟨nv, _, heq⟩ := List.mem_map.mp hmem
          cases heq
        rw [h1, h2]
        omega

theorem count_runNode_skip (node : BaseNode) (i : Int) (st : EngineState)
    (hhas : node.outputs.any (fun o => storeHas st.parcels (idxName o i)) = true) :
    ((runNode node st).1).log.count (LogEvent.runningForIndex node.node_id i)
      = st.log.count (LogEvent.runningForIndex node.node_id i) := by
  cases hm : getIndexedMatches node.requires st.parcels with
  | nil =>
      rw [runNode_eq_plain node st hm, runNodePlain]
      rw [insertOutputs_log, List.count_append, logEvent_log, logEvent_log,
        List.count_append, List.count_append]
      have h1 : List.count (LogEvent.runningForIndex node.node_id i)
          [LogEvent.running node.node_id] = 0 := by
        rw [List.count_eq_zero]
        simp
      have h2 : ∀ (l : List String),
          List.count (LogEvent.runningForIndex node.node_id i)
            [LogEvent.inputParcels l] = 0 := by
        intro l
        rw [List.count_eq_zero]
        simp
      have h3 : ∀ (outs : List (String × Value)),
          List.count (LogEvent.runningForIndex node.node_id i)
            (outs.map (fun nv => LogEvent.createdParcel nv.1)) = 0 := by
        intro outs
        rw [List.count_eq_zero]
        intro hmem
        obtain ⟨nv, _, heq⟩ := List.mem_map.mp hmem
        cases heq
      rw [h1, h2, h3]
      omega
  | cons j rest =>
      rw [runNode_eq_indexed node st j rest hm]
      exact count_runIndexed_skip node i _ st false hhas

theorem runPass_append (ns1 ns2 : List BaseNode) (st : EngineState) (ran : Nat) :
    runPass (ns1 ++ ns2) st ran
      = runPass ns2 ((runPass ns1 st ran).1) ((runPass ns1 st ran).2) := by
  induction ns1 generalizing st ran with
  | nil => simp [runPass]
  | cons node rest ih =>
      rw [List.cons_append]
      simp only [runPass]
      by_cases hcan : canNodeRun node st.parcels = true
      · rw [if_pos hcan, if_pos hcan, ih]
      · rw [if_neg hcan, if_neg hcan, ih]

theorem executeWorkflow_parcels (nodes : List BaseNode)
    (initial : List (String × Value)) :
    executeWorkflow nodes initial
      = ((runLoop nodes maxIterations 0
          (logEvent (logEvent (seedParcels initial ⟨[], [], 0⟩)
              (.startingWorkflow nodes.length))
            (.initialParcels
              (storeKeys (seedParcels initial ⟨[], [], 0⟩).parcels)))).1).parcels := by
  rw [executeWorkflow, executeWorkflowState]
  split
  · rfl
  · rfl

/-! ## Claim theorems -/

/-- C1 (counterexample): the single-assignment claim as stated is false —
in a run of the repository's own ArraySpreadNode over a store seeded
with users = ["a"] and a pre-existing "user[0]" parcel, the insertion
step of _run_node overwrites the existing "user[0]" parcel (the value
changes from "seeded" to "a", the timestamp and producer change), with
no existence check and no first-writer-wins resolution for this name. -/
theorem c1_overwrite_counterexample :
    storeFind (seedParcels seedWithCollision ⟨[], [], 0⟩).parcels "user[0]"
      = some ⟨"user[0]", .str "seeded", 1, Option.none⟩ ∧
    storeFind (executeWorkflow [spreadUsersNode] seedWithCollision) "user[0]"
      = some ⟨"user[0]", .str "a", 2, some "spread"⟩ ∧
    Value.str "seeded" ≠ Value.str "a" := by
  refine ⟨rfl, rfl, by simp⟩

/-- C1 (amended): store insertion itself is unconditional, so the
single-assignment property holds exactly for the declared-output
discipline: when every node's run always succeeds and emits only
duplicate-free declared names (bracket-free declared outputs for a
no-index invocation, declared-base[index] names for an indexed one),
then once a name maps to a parcel — at seeding or at any point of the
loop — that binding is never overwritten or mutated for the rest of the
run; in particular a same-pass collision on a declared output is
first-writer-wins because the readiness and per-index checks skip the
later node. -/
theorem c1_single_assignment_amended (nodes : List BaseNode)
    (initial : List (String × Value)) (hwb : ∀ n ∈ nodes, WellBehaved n) :
    (∀ (fuel iter : Nat) (st : EngineState) (m : String) (q : Parcel),
       storeFind st.parcels m = some q →
       storeFind ((runLoop nodes fuel iter st).1).parcels m = some q) ∧
    (∀ (m : String) (q : Parcel),
       storeFind (seedParcels initial ⟨[], [], 0⟩).parcels m = some q →
       storeFind (executeWorkflow nodes initial) m = some q) := by
  constructor
  · intro fuel iter st m q h
    exact runLoop_find_pres nodes fuel iter st hwb m q h
  · intro m q h
    rw [executeWorkflow_parcels]
    exact runLoop_find_pres nodes maxIterations 0 _ hwb m q h

/-- C1 (witness): the amended theorem applied to a concrete well-behaved
node and seed: the seeded "x" parcel survives the run unchanged. -/
theorem c1_witness :
    storeFind (executeWorkflow [wbNode] [("x", Value.int 5)]) "x"
      = some ⟨"x", Value.int 5, 0, Option.none⟩ := by
  have hwb : ∀ n ∈ [wbNode], WellBehaved n := by
    intro n hn
    rw [List.mem_singleton] at hn
    subst hn
    intro parcels index
    cases index with
    | none =>
        refine ⟨[("w", .int 1)], rfl, by simp, ?_⟩
        intro nv hnv
        rw [List.mem_singleton] at hnv
        subst hnv
        exact ⟨by simp [wbNode], rfl⟩
    | some i =>
        refine ⟨[(idxName "w" i, .int 1)], rfl, by simp, ?_⟩
        intro nv hnv
        rw [List.mem_singleton] at hnv
        subst hnv
        exact ⟨"w", by simp [wbNode], rfl⟩
  exact (c1_single_assignment_amended [wbNode] [("x", Value.int 5)] hwb).2
    "x" ⟨"x", Value.int 5, 0, Option.none⟩ rfl

/-- C2 (code bug): the engine decides readiness with its private
_can_node_run and never dispatches to the node's overridable can_run.
With only the metadata unit (length 1) seeded and "processed[0]"
absent, CollectNode's overridden predicate returns false, yet the
engine's check returns true and execute_workflow runs the node, which
emits the premature result []. -/
theorem c2_engine_ignores_override :
    collectResultNode.can_run (seedParcels seedMetaOnly ⟨[], [], 0⟩).parcels
      = false ∧
    canNodeRun collectResultNode (seedParcels seedMetaOnly ⟨[], [], 0⟩).parcels
      = true ∧
    LogEvent.running "collect"
      ∈ (executeWorkflowState [collectResultNode] seedMetaOnly).log ∧
    storeFind (executeWorkflow [collectResultNode] seedMetaOnly) "result"
      = some ⟨"result", .list [], 1, some "collect"⟩ := by
  refine ⟨rfl, rfl, by decide, rfl⟩

/-- C3 (code bug): the end-to-end example is not order independent.  In
the order [spread, map, collect] the final result is ["A","B","C"], but
in the order [spread, collect, map] the collector runs in the pass in
which only the metadata exists (its overriding can_run is never
consulted, see C2), publishes result = [] first, and is then
permanently skipped, so the final result is []. -/
theorem c3_order_dependence :
    storeFind (executeWorkflow
        [spreadItemsNode, mapUpperNode, collectResultNode] seedItems) "result"
      = some ⟨"result", .list [.str "A", .str "B", .str "C"], 8, some "collect"⟩ ∧
    storeFind (executeWorkflow
        [spreadItemsNode, collectResultNode, mapUpperNode] seedItems) "result"
      = some ⟨"result", .list [], 5, some "collect"⟩ := by
  exact ⟨rfl, rfl⟩

set_option maxRecDepth 1000000

/-- C4 (counterexample): the claim that an executed invocation is
skipped at all later passes is false — a node whose run raises leaves
its declared output absent, so _can_node_run accepts it again on every
pass: its run is invoked in all 100 passes of the run, not only once. -/
theorem c4_rerun_counterexample :
    (executeWorkflowState [failNode] []).log.count (LogEvent.running "f")
      = maxIterations := by rfl

/-- C4 (amended): the skip is keyed on the outputs, not on having been
executed: (1) store keys are never removed, so a name present before a
pass is present after it; (2) a node one of whose bracket-free declared
outputs exists in the store fails _can_node_run, so its no-index
invocation is never run again; (3) when some declared output[i] exists,
_run_node records no further invocation of the node at index i.  An
executed invocation stays skipped exactly when the execution left the
relevant declared output name(s) in the store — a failing node does
produce outputs (error_<id>) but not its declared ones, and is re-run. -/
theorem c4_skip_keyed_on_outputs :
    (∀ (nodes : List BaseNode) (st : EngineState) (ran : Nat) (m : String),
       storeHas st.parcels m = true →
       storeHas ((runPass nodes st ran).1).parcels m = true) ∧
    (∀ (node : BaseNode) (parcels : Store) (o : String),
       o ∈ node.outputs → strContains o '[' = false → storeHas parcels o = true →
       canNodeRun node parcels = false) ∧
    (∀ (node : BaseNode) (st : EngineState) (i : Int),
       node.outputs.any (fun o => storeHas st.parcels (idxName o i)) = true →
       ((runNode node st).1).log.count (LogEvent.runningForIndex node.node_id i)
         = st.log.count (LogEvent.runningForIndex node.node_id i)) := by
  refine ⟨runPass_has_mono, ?_, fun node st i => count_runNode_skip node i st⟩
  intro node parcels o ho hbr hhas
  have hany : node.outputs.any (fun output =>
      !(strContains output '[') && storeHas parcels output) = true :=
    List.any_eq_true.mpr ⟨o, ho, by rw [hbr, hhas]; rfl⟩
  rw [canNodeRun, hany]
  simp

/-- C5 (counterexample): a run that converges cleanly exactly on pass
100 (its 100th pass inserts nothing, so the loop breaks with the
completion message) is nonetheless marked with the max-iterations
warning, because the warning is keyed on the final iteration counter
rather than on how the loop exited. -/
theorem c5_clean_convergence_still_warned :
    LogEvent.complete ∈ (executeWorkflowState [slowNode] []).log ∧
    LogEvent.maxIterationsReached ∈ (executeWorkflowState [slowNode] []).log := by
  exact ⟨by decide, by decide⟩

/-- C5 (amended): execute_workflow always returns the store, and the
max-iterations entry appears in the trace if and only if all 100 passes
were executed — equivalently, iff the trace holds 100 iteration-start
entries.  A run converging on any pass up to 99 is never marked; a run
whose first zero-insertion pass is pass 100 converges cleanly but is
marked anyway. -/
theorem c5_warning_iff_all_passes (nodes : List BaseNode)
    (initial : List (String × Value)) :
    LogEvent.maxIterationsReached ∈ (executeWorkflowState nodes initial).log ↔
      (executeWorkflowState nodes initial).log.countP isIterationStart
        = maxIterations := by
  have hunf : executeWorkflowState nodes initial =
      (if maxIterations ≤ (runLoop nodes maxIterations 0
          (logEvent (logEvent (seedParcels initial ⟨[], [], 0⟩)
              (.startingWorkflow nodes.length))
            (.initialParcels
              (storeKeys (seedParcels initial ⟨[], [], 0⟩).parcels)))).2
       then logEvent ((runLoop nodes maxIterations 0
          (logEvent (logEvent (seedParcels initial ⟨[], [], 0⟩)
              (.startingWorkflow nodes.length))
            (.initialParcels
              (storeKeys (seedParcels initial ⟨[], [], 0⟩).parcels)))).1)
          .maxIterationsReached
       else (runLoop nodes maxIterations 0
          (logEvent (logEvent (seedParcels initial ⟨[], [], 0⟩)
              (.startingWorkflow nodes.length))
            (.initialParcels
              (storeKeys (seedParcels initial ⟨[], [], 0⟩).parcels)))).1) := rfl
  obtain ⟨k, hk1, hk2, hk3, hk4⟩ := runLoop_spec nodes maxIterations 0
    (logEvent (logEvent (seedParcels initial ⟨[], [], 0⟩)
        (.startingWorkflow nodes.length))
      (.initialParcels (storeKeys (seedParcels initial ⟨[], [], 0⟩).parcels)))
  rw [logEvent_log, logEvent_log, seedParcels_log] at hk3 hk4
  simp only [List.nil_append, List.countP_append] at hk3 hk4
  have hiter0 : ([LogEvent.startingWorkflow nodes.length].countP isIterationStart
      + [LogEvent.initialParcels
          (storeKeys (seedParcels initial ⟨[], [], 0⟩).parcels)].countP
            isIterationStart) = 0 := rfl
  have hmax0 : ([LogEvent.startingWorkflow nodes.length].countP
        (fun e => e == LogEvent.maxIterationsReached)
      + [LogEvent.initialParcels
          (storeKeys (seedParcels initial ⟨[], [], 0⟩).parcels)].countP
            (fun e => e == LogEvent.maxIterationsReached)) = 0 := rfl
  rw [hunf]
  have hnotmem : LogEvent.maxIterationsReached ∉
      ((runLoop nodes maxIterations 0
        (logEvent (logEvent (seedParcels initial ⟨[], [], 0⟩)
            (.startingWorkflow nodes.length))
          (.initialParcels
            (storeKeys (seedParcels initial ⟨[], [], 0⟩).parcels)))).1).log := by
    intro hmem
    have hzero : ((runLoop nodes maxIterations 0
        (logEvent (logEvent (seedParcels initial ⟨[], [], 0⟩)
            (.startingWorkflow nodes.length))
          (.initialParcels
            (storeKeys (seedParcels initial ⟨[], [], 0⟩).parcels)))).1).log.countP
        (fun e => e == LogEvent.maxIterationsReached) = 0 := by omega
    have := List.countP_eq_zero.mp hzero _ hmem
    simp at this
  by_cases hb : maxIterations ≤ (runLoop nodes maxIterations 0
      (logEvent (logEvent (seedParcels initial ⟨[], [], 0⟩)
          (.startingWorkflow nodes.length))
        (.initialParcels
          (storeKeys (seedParcels initial ⟨[], [], 0⟩).parcels)))).2
  · rw [if_pos hb]
    rw [hk1] at hb
    have hk100 : k = maxIterations := by
      rw [maxIterations] at hb hk2 ⊢
      omega
    constructor
    · intro _
      rw [logEvent_log, List.countP_append, hk3]
      have : [LogEvent.maxIterationsReached].countP isIterationStart = 0 := rfl
      omega
    · intro _
      rw [logEvent_log]
      exact List.mem_append_right _ (List.mem_singleton.mpr rfl)
  · rw [if_neg hb]
    rw [hk1] at hb
    have hklt : k < maxIterations := by omega
    constructor
    · intro hmem
      exact absurd hmem hnotmem
    · intro hcount
      rw [hk3] at hcount
      omega

/-- C6: Exact-match fan-out suppression — for every store and required
list, the fan-out computation of _get_indexed_matches is unchanged when
the required bases that have an exact match are removed (they
contribute no indices, even when indexed units of the same base
coexist); in particular a single exactly-matched base yields the empty
fan-out set, as in the store holding both "user" and "user[0]". -/
theorem c6_exact_match_suppresses_fanout (parcels : Store)
    (rs : List String) :
    (getIndexedMatches rs parcels
      = getIndexedMatches (rs.filter (fun r => !(storeHas parcels r)))
          parcels) ∧
    (∀ r, storeHas parcels r = true → getIndexedMatches [r] parcels = []) ∧
    getIndexedMatches ["user"]
      [("user", namedParcel "user"), ("user[0]", namedParcel "user[0]")]
      = [] := by
  refine ⟨getIndexedMatches_filter rs parcels, ?_, rfl⟩
  intro r hr
  rw [getIndexedMatches_filter [r] parcels]
  have hfil : [r].filter (fun r => !(storeHas parcels r)) = [] := by
    simp [List.filter_cons, hr]
  rw [hfil]
  rfl

/-- C7: Fan-out ordering — the fan-out set is strictly ascending and
duplicate-free and holds exactly the integer indices parsed from
indexed matches of required bases without an exact match; _run_node
with an empty fan-out set records exactly one no-index invocation,
with a non-empty one it records indexed invocations forming a sublist
of the fan-out set (so ascending, at most once per index); concretely,
with b[10] and b[2] in the store (in that insertion order) the node is
invoked at index 2 and then at index 10 — numeric, not lexicographic
order. -/
theorem c7_fanout_sorted_and_visited_in_order :
    (∀ (rs : List String) (parcels : Store),
       (getIndexedMatches rs parcels).Pairwise (· < ·)) ∧
    (∀ (rs : List String) (parcels : Store) (j : Int),
       j ∈ getIndexedMatches rs parcels ↔
         ∃ r ∈ rs, storeHas parcels r = false ∧
           ∃ name ∈ storeKeys parcels, matchesIndexed name r = true ∧
             pyInt (bracketContent name r) = some j) ∧
    (∀ (node : BaseNode) (st : EngineState),
       getIndexedMatches node.requires st.parcels = [] →
       invocationsOf node.node_id ((runNode node st).1).log
         = invocationsOf node.node_id st.log ++ [Option.none]) ∧
    (∀ (node : BaseNode) (st : EngineState) (i : Int) (rest : List Int),
       getIndexedMatches node.requires st.parcels = i :: rest →
       ∃ invoked : List Int, invoked.Sublist (i :: rest) ∧
         invocationsOf node.node_id ((runNode node st).1).log
           = invocationsOf node.node_id st.log ++ invoked.map some) ∧
    invocationsOf "fan" (executeWorkflowState [fanNode] seedTenTwo).log
      = [some 2, some 10] := by
  refine ⟨pairwise_getIndexedMatches, mem_getIndexedMatches, ?_, ?_, rfl⟩
  · intro node st hm
    rw [runNode_eq_plain node st hm]
    exact invocationsOf_runNodePlain node st
  · intro node st i rest hm
    rw [runNode_eq_indexed node st i rest hm]
    exact invocationsOf_runIndexed node (i :: rest) st false

/-- C8: Error containment — a failure inside run is converted by
run_safe into exactly the single synthetic output error_<node_id>
carrying the message, the node id and a timestamp, and nothing is
propagated (run_safe is total); concretely, in the run
[failNode, lateNode, okNode] with failNode raising on every pass, the
independent okNode still runs in pass 1, lateNode (dependent on okNode
but listed before it) still runs in pass 2, and the error unit is in
the final store. -/
theorem c8_error_containment :
    (∀ (node : BaseNode) (parcels : Store) (index : Option Int) (now : Nat)
       (e : String), node.run parcels index = .error e →
       node.run_safe parcels index now
         = [("error_" ++ node.node_id,
             .dict [("error", .str e), ("node_id", .str node.node_id),
                    ("timestamp", .int now)])]) ∧
    storeFind (executeWorkflow [failNode, lateNode, okNode] []) "good"
      = some ⟨"good", .str "fine", 1, some "ok"⟩ ∧
    storeFind (executeWorkflow [failNode, lateNode, okNode] []) "late_out"
      = some ⟨"late_out", .str "fine", 3, some "late"⟩ ∧
    (storeFind (executeWorkflow [failNode, lateNode, okNode] [])
        "error_f").isSome = true := by
  refine ⟨?_, rfl, rfl, rfl⟩
  intro node parcels index now e h
  rw [BaseNode.run_safe, h]

/-- C9: Immediate in-pass visibility — the pass over the node list
threads the store left to right (running a prefix and then the rest of
the list on the prefix's resulting state is the same as one pass over
the whole list), and for the two-node chain [A, B] where B requires
exactly A's output, the very first pass runs both nodes: B's output is
present, carrying A's payload, after pass 1, and in the full run. -/
theorem c9_in_pass_visibility (v : Value) :
    (∀ (ns1 ns2 : List BaseNode) (st : EngineState) (ran : Nat),
       runPass (ns1 ++ ns2) st ran
         = runPass ns2 ((runPass ns1 st ran).1) ((runPass ns1 st ran).2)) ∧
    (runPass [chainHead v, chainTail] ⟨[], [], 0⟩ 0).2 = 2 ∧
    storeFind ((runPass [chainHead v, chainTail] ⟨[], [], 0⟩ 0).1).parcels "b"
      = some ⟨"b", v, 1, some "B"⟩ ∧
    storeFind (executeWorkflow [chainHead v, chainTail] []) "b"
      = some ⟨"b", v, 1, some "B"⟩ := by
  exact ⟨runPass_append, rfl, rfl, rfl⟩

/-- C10: fan-out membership is decided solely by int() success on the
bracket text — an index j is in the fan-out set exactly when some
required base without an exact match has a store name base[s] with
int(s) = j; negative indices parse ("-1"), non-integer bracket contents
("abc", "1][2") parse to nothing and are silently excluded, never an
error and never an indexed execution. -/
theorem c10_fanout_membership_is_int_parse :
    (∀ (rs : List String) (parcels : Store) (j : Int),
       j ∈ getIndexedMatches rs parcels ↔
         ∃ r ∈ rs, storeHas parcels r = false ∧
           ∃ name ∈ storeKeys parcels, matchesIndexed name r = true ∧
             pyInt (bracketContent name r) = some j) ∧
    pyInt "-1" = some (-1) ∧
    pyInt "abc" = Option.none ∧
    pyInt "1][2" = Option.none ∧
    getIndexedMatches ["base"] [("base[-1]", namedParcel "base[-1]")]
      = [-1] ∧
    getIndexedMatches ["base"]
      [("base[abc]", namedParcel "base[abc]"),
       ("base[1][2]", namedParcel "base[1][2]")] = [] := by
  exact ⟨mem_getIndexedMatches, rfl, rfl, rfl, rfl, rfl⟩
